import Mathlib

/-!
Verification of the sentence-corpus prediction experiment (src/script.js).

Strings are modelled as `List Char`, JS numbers used as monotonic-clock
timestamps (`performance.now()`, fractional milliseconds) as `ℚ`, and the
nullable instance fields of `ExperimentManager` as `Option` values.  JS
truthiness on a nullable number (`if (x)`) is `jsTruthy`: `null` and `0`
are falsy, every other number is truthy.
-/

namespace SCP

/-- Whitespace test used by the tokenizer (`\s` in the JS regex, modelled by
`Char.isWhitespace`). -/
def isWs (c : Char) : Bool := c.isWhitespace

/-- Negation of `isWs`, the character class of word (non-whitespace) chars. -/
def notWs (c : Char) : Bool := !(isWs c)

/-- `String.prototype.trim()`: drop whitespace from both ends of a string. -/
def trimChars (s : List Char) : List Char :=
  ((s.dropWhile isWs).reverse.dropWhile isWs).reverse

/-- `String.prototype.split` on a whitespace separator: cut the string at each
whitespace character.  Cutting at every single whitespace character and later
dropping empty chunks gives the same result as the JS split on the run regex
`/\s+/` followed by the same filter, since a run of k whitespace characters
contributes k-1 empty chunks here and at most one there. -/
def splitOnWs : List Char → List (List Char)
  | [] => [[]]
  | c :: s =>
    if isWs c then [] :: splitOnWs s
    else (c :: (splitOnWs s).headI) :: (splitOnWs s).tail

/-- src/script.js:298 `splitIntoWords(sentence)`:
`sentence.trim().split(/\s+/).filter(word => word.length > 0)`. -/
def splitIntoWords (s : List Char) : List (List Char) :=
  (splitOnWs (trimChars s)).filter (fun w => w ≠ [])

/-- Split-then-filter without the trim; `splitIntoWords = splitFilter ∘ trimChars`. -/
def splitFilter (s : List Char) : List (List Char) :=
  (splitOnWs s).filter (fun w => w ≠ [])

/-- Reference tokenizer: the classic `words` recursion.  Used only as a proof
vehicle; `splitIntoWords` is proved equal to it. -/
def wordsRec : List Char → List (List Char)
  | [] => []
  | c :: s =>
    if isWs c then wordsRec s
    else (c :: s.takeWhile notWs) :: wordsRec (s.dropWhile notWs)
termination_by s => s.length
decreasing_by
  all_goals simp only [List.length_cons]
  · omega
  · have h2 : s.dropWhile notWs <:+ s := List.dropWhile_suffix notWs
    have := h2.sublist.length_le
    omega

/-- Modelled from the spec (§8): `normalize_whitespace` — collapse each run of
whitespace into a single space character.  This is the spec-side construct of
claim C9, not repository code. -/
def collapseRuns : List Char → List Char
  | [] => []
  | c :: s =>
    if isWs c then ' ' :: collapseRuns (s.dropWhile isWs)
    else c :: collapseRuns s
termination_by s => s.length
decreasing_by
  all_goals simp only [List.length_cons]
  · have h2 : s.dropWhile isWs <:+ s := List.dropWhile_suffix isWs
    have := h2.sublist.length_le
    omega
  · omega

/-- Modelled from the spec (§8): whitespace normalization — collapse internal
runs of whitespace to single spaces and strip leading/trailing whitespace. -/
def normalizeWs (s : List Char) : List Char :=
  trimChars (collapseRuns s)

theorem splitOnWs_ne_nil (s : List Char) : splitOnWs s ≠ [] := by
  cases s with
  | nil => simp [splitOnWs]
  | cons c s => by_cases h : isWs c <;> simp [splitOnWs, h]

theorem splitFilter_ws (c : Char) (s : List Char) (h : isWs c) :
    splitFilter (c :: s) = splitFilter s := by
  simp [splitFilter, splitOnWs, h]

/-- Head chunk and tail of `splitOnWs`, expressed via `takeWhile`/`dropWhile`. -/
theorem splitOnWs_head_tail (s : List Char) :
    (splitOnWs s).headI = s.takeWhile notWs ∧
      ((splitOnWs s).tail).filter (fun w => w ≠ []) =
        splitFilter (s.dropWhile notWs) := by
  induction s with
  | nil => simp [splitOnWs, splitFilter]
  | cons c s ih =>
    by_cases h : isWs c
    · have hn : notWs c = false := by simp [notWs, h]
      refine ⟨?_, ?_⟩
      · simp [splitOnWs, h, List.takeWhile_cons, hn]
      · simp only [splitOnWs, h, if_true, List.tail_cons, List.dropWhile_cons, hn,
          Bool.false_eq_true, if_false]
        exact (splitFilter_ws c s h).symm
    · have hn : notWs c = true := by simp [notWs, h]
      refine ⟨?_, ?_⟩
      · simp [splitOnWs, h, List.takeWhile_cons, hn, ih.1]
      · simp only [splitOnWs, h, if_false, List.tail_cons, List.dropWhile_cons, hn, if_true]
        exact ih.2

/-- Bridge: the source tokenizer body (split at whitespace, drop empties)
equals the reference `wordsRec`. -/
theorem splitFilter_eq_wordsRec (s : List Char) : splitFilter s = wordsRec s := by
  induction s using wordsRec.induct with
  | case1 => simp [splitFilter, splitOnWs, wordsRec]
  | case2 c s h ih =>
    rw [splitFilter_ws c s h, ih, wordsRec]
    simp [h]
  | case3 c s h ih =>
    have hcons : splitOnWs (c :: s) =
        (c :: (splitOnWs s).headI) :: (splitOnWs s).tail := by
      simp [splitOnWs, h]
    have hht := splitOnWs_head_tail s
    rw [splitFilter, hcons]
    rw [List.filter_cons_of_pos (by simp)]
    rw [hht.2, ih, wordsRec]
    simp [h, hht.1]

theorem takeWhile_append_singleton {p : Char → Bool} (c : Char) (hc : p c = false) :
    ∀ t : List Char, (t ++ [c]).takeWhile p = t.takeWhile p := by
  intro t
  induction t with
  | nil => simp [List.takeWhile_cons, hc]
  | cons d t ih =>
    by_cases hd : p d <;> simp [List.takeWhile_cons, hd, ih]

theorem dropWhile_append_singleton {p : Char → Bool} (c : Char) (hc : p c = false) :
    ∀ t : List Char, (t ++ [c]).dropWhile p = t.dropWhile p ++ [c] := by
  intro t
  induction t with
  | nil => simp [List.dropWhile_cons, hc]
  | cons d t ih =>
    by_cases hd : p d <;> simp [List.dropWhile_cons, hd, ih]

/-- Appending one trailing whitespace character does not change the word list. -/
theorem wordsRec_append_ws (c : Char) (hc : isWs c) :
    ∀ s : List Char, wordsRec (s ++ [c]) = wordsRec s := by
  intro s
  have hcn : notWs c = false := by simp [notWs, hc]
  induction s using wordsRec.induct with
  | case1 => simp [wordsRec, hc, List.takeWhile_nil, List.dropWhile_nil]
  | case2 d s h ih =>
    rw [List.cons_append, wordsRec, if_pos h, ih, wordsRec, if_pos h]
  | case3 d s h ih =>
    rw [List.cons_append, wordsRec, if_neg h,
      takeWhile_append_singleton c hcn, dropWhile_append_singleton c hcn, ih,
      wordsRec, if_neg h]

/-- Appending any trailing whitespace does not change the word list. -/
theorem wordsRec_append_ws_list :
    ∀ (u s : List Char), (∀ c ∈ u, isWs c) → wordsRec (s ++ u) = wordsRec s := by
  intro u
  induction u with
  | nil => simp
  | cons c u ih =>
    intro s hu
    have : s ++ c :: u = (s ++ [c]) ++ u := by simp
    rw [this, ih (s ++ [c]) (fun d hd => hu d (List.mem_cons_of_mem c hd)),
      wordsRec_append_ws c (hu c (List.mem_cons_self c u)) s]

/-- Dropping leading whitespace does not change the word list. -/
theorem wordsRec_dropWhile_ws (s : List Char) :
    wordsRec (s.dropWhile isWs) = wordsRec s := by
  induction s with
  | nil => simp
  | cons c s ih =>
    by_cases h : isWs c
    · rw [List.dropWhile_cons]
      simp only [h, if_true]
      rw [ih, wordsRec, if_pos h]
    · rw [List.dropWhile_cons]
      simp only [h, Bool.false_eq_true, if_false]

/-- Trimming does not change the word list. -/
theorem wordsRec_trim (s : List Char) : wordsRec (trimChars s) = wordsRec s := by
  have hsplit : s.dropWhile isWs =
      trimChars s ++ ((s.dropWhile isWs).reverse.takeWhile isWs).reverse := by
    have h1 : (s.dropWhile isWs).reverse =
        (s.dropWhile isWs).reverse.takeWhile isWs ++
          (s.dropWhile isWs).reverse.dropWhile isWs :=
      (List.takeWhile_append_dropWhile ..).symm
    have h2 := congrArg List.reverse h1
    rw [List.reverse_reverse, List.reverse_append] at h2
    exact h2
  have hu : ∀ c ∈ ((s.dropWhile isWs).reverse.takeWhile isWs).reverse, isWs c := by
    intro c hcmem
    rw [List.mem_reverse] at hcmem
    exact List.mem_takeWhile_imp hcmem
  calc wordsRec (trimChars s)
      = wordsRec (trimChars s ++ ((s.dropWhile isWs).reverse.takeWhile isWs).reverse) :=
        (wordsRec_append_ws_list _ _ hu).symm
    _ = wordsRec (s.dropWhile isWs) := by rw [← hsplit]
    _ = wordsRec s := wordsRec_dropWhile_ws s

/-- The source tokenizer equals the reference recursion. -/
theorem splitIntoWords_eq_wordsRec (s : List Char) :
    splitIntoWords s = wordsRec s := by
  calc splitIntoWords s = splitFilter (trimChars s) := rfl
    _ = wordsRec (trimChars s) := splitFilter_eq_wordsRec (trimChars s)
    _ = wordsRec s := wordsRec_trim s

theorem takeWhile_collapseRuns (s : List Char) :
    (collapseRuns s).takeWhile notWs = s.takeWhile notWs := by
  induction s using collapseRuns.induct with
  | case1 => simp [collapseRuns]
  | case2 c s h ih =>
    have hn : notWs c = false := by simp [notWs, h]
    have hsp : notWs ' ' = false := by simp [notWs, isWs]
    rw [collapseRuns, if_pos h, List.takeWhile_cons, List.takeWhile_cons]
    simp [hn, hsp]
  | case3 c s h ih =>
    have hn : notWs c = true := by simp [notWs, h]
    rw [collapseRuns, if_neg h, List.takeWhile_cons, List.takeWhile_cons]
    simp [hn, ih]

theorem dropWhile_collapseRuns (s : List Char) :
    (collapseRuns s).dropWhile notWs = collapseRuns (s.dropWhile notWs) := by
  induction s using collapseRuns.induct with
  | case1 => simp [collapseRuns]
  | case2 c s h ih =>
    have hn : notWs c = false := by simp [notWs, h]
    have hsp : notWs ' ' = false := by simp [notWs, isWs]
    rw [collapseRuns, if_pos h, List.dropWhile_cons, List.dropWhile_cons]
    simp only [hsp, Bool.false_eq_true, if_false, hn]
    rw [collapseRuns, if_pos h]
  | case3 c s h ih =>
    have hn : notWs c = true := by simp [notWs, h]
    rw [collapseRuns, if_neg h, List.dropWhile_cons, List.dropWhile_cons]
    simp only [hn, if_true, ih]

/-- Collapsing whitespace runs does not change the word list. -/
theorem wordsRec_collapseRuns : ∀ (n : Nat) (s : List Char), s.length ≤ n →
    wordsRec (collapseRuns s) = wordsRec s := by
  intro n
  induction n with
  | zero =>
    intro s hs
    have : s = [] := List.length_eq_zero.mp (Nat.le_zero.mp hs)
    subst this
    simp [collapseRuns]
  | succ n ih =>
    intro s hs
    cases s with
    | nil => simp [collapseRuns]
    | cons c s =>
      by_cases h : isWs c
      · have hdl : (s.dropWhile isWs).length ≤ n := by
          have h2 : s.dropWhile isWs <:+ s := List.dropWhile_suffix isWs
          have := h2.sublist.length_le
          simp only [List.length_cons] at hs
          omega
        rw [collapseRuns, if_pos h, wordsRec,
          if_pos (show isWs ' ' = true by simp [isWs]),
          ih _ hdl, wordsRec_dropWhile_ws, wordsRec, if_pos h]
      · have hdl : (s.dropWhile notWs).length ≤ n := by
          have h2 : s.dropWhile notWs <:+ s := List.dropWhile_suffix notWs
          have := h2.sublist.length_le
          simp only [List.length_cons] at hs
          omega
        rw [collapseRuns, if_neg h, wordsRec, if_neg h,
          takeWhile_collapseRuns, dropWhile_collapseRuns, ih _ hdl,
          wordsRec, if_neg h]

theorem wordsRec_eq_nil_iff (s : List Char) :
    wordsRec s = [] ↔ ∀ c ∈ s, isWs c := by
  induction s using wordsRec.induct with
  | case1 => simp [wordsRec]
  | case2 c s h ih =>
    rw [wordsRec, if_pos h, ih]
    constructor
    · intro hall d hd
      rcases List.mem_cons.mp hd with h1 | h1
      · rw [h1]; exact h
      · exact hall d h1
    · intro hall d hd
      exact hall d (List.mem_cons_of_mem c hd)
  | case3 c s h ih =>
    rw [wordsRec, if_neg h]
    constructor
    · intro hc
      exact absurd hc (List.cons_ne_nil _ _)
    · intro hall
      exact absurd (hall c (List.mem_cons_self c s)) h

/-- C9: For every input string `s`, the tokenizer is invariant under whitespace
normalization (`splitIntoWords s = splitIntoWords (normalizeWs s)`), and it
returns the empty sequence exactly when `s` is empty or whitespace-only. -/
theorem splitIntoWords_normalize_invariant (s : List Char) :
    splitIntoWords s = splitIntoWords (normalizeWs s) ∧
      (splitIntoWords s = [] ↔ ∀ c ∈ s, isWs c) := by
  constructor
  · rw [splitIntoWords_eq_wordsRec, splitIntoWords_eq_wordsRec, normalizeWs,
      wordsRec_trim]
    exact (wordsRec_collapseRuns s.length s (Nat.le_refl _)).symm
  · rw [splitIntoWords_eq_wordsRec]
    exact wordsRec_eq_nil_iff s

/-! ## Timing capture and result records

The mutable fields of the page-wide `ExperimentManager` instance
(src/script.js:2-22) that the core logic reads and writes.  DOM and timer
handles are plumbing and are not modelled.  Nullable fields are `Option`s;
monotonic-clock readings are `ℚ` (fractional milliseconds). -/

/-- The immutable result object built by `saveResult` (src/script.js:381-394).
Raw nullable timestamps are exported through `x || 0`, so the record's
timestamp fields are plain numbers. -/
structure ResultRecord where
  participantId : List Char
  participantNumber : Option (List Char)
  participantGender : Option (List Char)
  participantAge : Option Int
  sentenceIndex : Nat
  wordIndex : Nat
  predictedWord : List Char
  actualNextWord : List Char
  screenDisplayTime : ℚ
  inputStartTime : ℚ
  responseTime : ℚ
  timestamp : List Char
deriving DecidableEq

structure ExperimentState where
  sentences : List (List Char)
  currentSentenceIndex : Nat
  currentWordIndex : Nat
  results : List ResultRecord
  experimentStartTime : Option ℚ
  screenDisplayTime : Option ℚ
  inputStartTime : Option ℚ
  isWaitingForInput : Bool
  participantId : List Char
  participantNumber : Option (List Char)
  participantGender : Option (List Char)
  participantAge : Option Int
deriving DecidableEq

/-- JS truthiness of a nullable number: `null` and `0` are falsy. -/
def jsTruthy : Option ℚ → Bool
  | none => false
  | some v => v != 0

/-- JS `x || 0` on a nullable number: `null` and `0` give `0`. -/
def orZero : Option ℚ → ℚ
  | none => 0
  | some v => v

/-- src/script.js:283-295 `recordScreenDisplayTime`: the callback scheduled
behind two animation frames plus a 50ms delay; when it fires it assigns
`this.screenDisplayTime = performance.now()` unconditionally (there is no
already-set guard in the source).  `now` is the clock reading at firing
time. -/
def recordScreenDisplayTimeFire (st : ExperimentState) (now : ℚ) : ExperimentState :=
  { st with screenDisplayTime := some now }

/-- src/script.js:316-326 `recordInputStart`: records `performance.now()` into
`inputStartTime` only when the field is falsy and the manager is waiting for
input, and then clears the waiting flag; otherwise a no-op. -/
def recordInputStart (st : ExperimentState) (now : ℚ) : ExperimentState :=
  if !(jsTruthy st.inputStartTime) && st.isWaitingForInput then
    { st with inputStartTime := some now, isWaitingForInput := false }
  else st

/-- src/script.js:259-280 `prepareForPrediction` (synchronous state effects):
activates the input-wait flag and resets `inputStartTime` to `null`, then
schedules `recordScreenDisplayTime` (modelled separately as
`recordScreenDisplayTimeFire`) and the input focus.  Note that
`screenDisplayTime` is NOT touched synchronously. -/
def prepareForPrediction (st : ExperimentState) : ExperimentState :=
  { st with isWaitingForInput := true, inputStartTime := none }

/-- src/script.js:210-256 `displayCurrentSentence` (synchronous state
effects): past the last sentence it completes the experiment (no index
change); past the last word of the current sentence it advances to the next
sentence and recurses; on the last word it only schedules the 2s auto-advance
(no synchronous index change); otherwise it calls `prepareForPrediction`. -/
def displayCurrentSentence (st : ExperimentState) : ExperimentState :=
  if h : st.currentSentenceIndex < st.sentences.length then
    let words := splitIntoWords (st.sentences.get ⟨st.currentSentenceIndex, h⟩)
    if st.currentWordIndex ≥ words.length then
      displayCurrentSentence
        { st with currentSentenceIndex := st.currentSentenceIndex + 1,
                  currentWordIndex := 0 }
    else st
  else st
termination_by st.sentences.length - st.currentSentenceIndex

/-- src/script.js:346-398 `saveResult(prediction)`: computes the response time
(zero unless both timestamps are truthy; negative differences clamped to 0)
and builds the result object.  `nowIso` is the wall-clock string
`new Date().toISOString()`. -/
def saveResult (st : ExperimentState) (prediction : List Char)
    (nowIso : List Char) : ResultRecord :=
  let sentence := st.sentences.getD st.currentSentenceIndex []
  let words := splitIntoWords sentence
  let actualNextWord := words.getD (st.currentWordIndex + 1) []
  let responseTime : ℚ :=
    if jsTruthy st.inputStartTime && jsTruthy st.screenDisplayTime then
      let rt := orZero st.inputStartTime - orZero st.screenDisplayTime
      if rt < 0 then 0 else rt
    else 0
  { participantId := st.participantId
    participantNumber := st.participantNumber
    participantGender := st.participantGender
    participantAge := st.participantAge
    sentenceIndex := st.currentSentenceIndex
    wordIndex := st.currentWordIndex
    predictedWord := prediction
    actualNextWord := actualNextWord
    screenDisplayTime := orZero st.screenDisplayTime
    inputStartTime := orZero st.inputStartTime
    responseTime := responseTime
    timestamp := nowIso }

/-- src/script.js:329-343 `confirmPrediction`: trims the input value; rejects
an empty result with no state change; otherwise appends the result record,
increments `currentWordIndex` and redisplays. -/
def confirmPrediction (st : ExperimentState) (inputValue : List Char)
    (nowIso : List Char) : ExperimentState :=
  let prediction := trimChars inputValue
  if prediction = [] then st
  else
    let st1 := { st with results := st.results ++ [saveResult st prediction nowIso] }
    let st2 := { st1 with currentWordIndex := st1.currentWordIndex + 1 }
    displayCurrentSentence st2

/-- The constructor's field initialization (src/script.js:3-19), before any
stimuli are loaded: empty sentence list, indices at 0, all nullable fields
`null`. -/
def baseState : ExperimentState :=
  { sentences := []
    currentSentenceIndex := 0
    currentWordIndex := 0
    results := []
    experimentStartTime := none
    screenDisplayTime := none
    inputStartTime := none
    isWaitingForInput := false
    participantId := []
    participantNumber := none
    participantGender := none
    participantAge := none }

/-- A state holding one three-word sentence, used for concrete scenarios. -/
def abcState : ExperimentState :=
  { baseState with sentences := ["a b c".toList] }

theorem displayCurrentSentence_results_aux : ∀ (n : Nat) (st : ExperimentState),
    st.sentences.length - st.currentSentenceIndex ≤ n →
    (displayCurrentSentence st).results = st.results ∧
      (displayCurrentSentence st).sentences = st.sentences := by
  intro n
  induction n with
  | zero =>
    intro st h0
    have hge : ¬ st.currentSentenceIndex < st.sentences.length := by omega
    rw [displayCurrentSentence]
    simp [hge]
  | succ n ih =>
    intro st h
    rw [displayCurrentSentence]
    by_cases hlt : st.currentSentenceIndex < st.sentences.length
    · simp only [hlt, dif_pos]
      by_cases hw : st.currentWordIndex ≥
          (splitIntoWords (st.sentences.get ⟨st.currentSentenceIndex, hlt⟩)).length
      · rw [if_pos hw]
        exact ih _ (by simp only [List.length_cons]; omega)
      · rw [if_neg hw]
        exact ⟨rfl, rfl⟩
    · simp [hlt]

/-- `displayCurrentSentence` never touches the ledger or the sentence list. -/
theorem displayCurrentSentence_results (st : ExperimentState) :
    (displayCurrentSentence st).results = st.results :=
  (displayCurrentSentence_results_aux _ st (Nat.le_refl _)).1

/-- The ledger effect of a successful confirmation: exactly the record built
by `saveResult` on the pre-confirmation state is appended. -/
theorem confirmPrediction_results (st : ExperimentState) (inputValue nowIso : List Char)
    (h : trimChars inputValue ≠ []) :
    (confirmPrediction st inputValue nowIso).results =
      st.results ++ [saveResult st (trimChars inputValue) nowIso] := by
  rw [confirmPrediction]
  simp only [h, if_neg, if_false]
  rw [displayCurrentSentence_results]

/-- C1 (amended): the exported response time is never negative; and whenever
both timestamps were recorded with nonzero values, it equals
`max 0 (inputStartTime - displayTime)` — any negative raw difference is
clamped to exactly 0.  (The original claim, quantifying over all recorded
values, fails when a timestamp is recorded as exactly 0, because the source
guards the subtraction with JS truthiness; see the counterexample and C10.) -/
theorem saveResult_responseTime_clamped (st : ExperimentState)
    (prediction nowIso : List Char) :
    0 ≤ (saveResult st prediction nowIso).responseTime ∧
    ∀ d i : ℚ, st.screenDisplayTime = some d → st.inputStartTime = some i →
      d ≠ 0 → i ≠ 0 →
      (saveResult st prediction nowIso).responseTime = max 0 (i - d) := by
  constructor
  · simp only [saveResult]
    split
    · split <;> linarith
    · linarith
  · intro d i hd hi hd0 hi0
    have hji : jsTruthy (some i) = true := by simp [jsTruthy, hi0]
    have hjd : jsTruthy (some d) = true := by simp [jsTruthy, hd0]
    simp only [saveResult, hd, hi, hji, hjd, Bool.and_self, if_true, orZero]
    rcases le_or_lt 0 (i - d) with hle | hlt
    · rw [if_neg (by linarith), max_eq_right hle]
    · rw [if_pos hlt, max_eq_left (by linarith)]

/-- C1 witness: `displayTime = 1000`, `inputStartTime = 900` (anomalous
ordering) exports response time `max 0 (900 - 1000) = 0`. -/
theorem saveResult_responseTime_clamped_witness :
    (saveResult { baseState with screenDisplayTime := some 1000, inputStartTime := some 900 } [] []).responseTime = max 0 (900 - 1000) :=
  (saveResult_responseTime_clamped _ [] []).2 1000 900 rfl rfl
    (by norm_num) (by norm_num)

/-- C1 counterexample: both timestamps recorded (`displayTime = 0`,
`inputStartTime = 5`), yet the exported response time is `0`, not
`max 0 (5 - 0) = 5`: a display timestamp of exactly 0 is falsy in JS, so the
code takes the timing-gap branch. -/
theorem saveResult_zero_display_not_max :
    (saveResult { baseState with screenDisplayTime := some 0, inputStartTime := some 5 } [] []).responseTime = 0 ∧
      max (0 : ℚ) (5 - 0) = 5 ∧ (0 : ℚ) ≠ 5 := by
  refine ⟨?_, by norm_num, by norm_num⟩
  simp [saveResult, jsTruthy, baseState]

/-- C10: a timestamp captured as exactly 0 is treated by `saveResult` exactly
like a never-recorded one: the produced records are identical (the raw field
exports as 0 via `|| 0`) and the response time is 0 — a timing-data gap. -/
theorem saveResult_zero_timestamp_as_missing (st : ExperimentState)
    (prediction nowIso : List Char) :
    saveResult { st with screenDisplayTime := some 0 } prediction nowIso =
      saveResult { st with screenDisplayTime := none } prediction nowIso ∧
    (saveResult { st with screenDisplayTime := some 0 } prediction nowIso).responseTime
      = 0 ∧
    saveResult { st with inputStartTime := some 0 } prediction nowIso =
      saveResult { st with inputStartTime := none } prediction nowIso ∧
    (saveResult { st with inputStartTime := some 0 } prediction nowIso).responseTime
      = 0 := by
  refine ⟨?_, ?_, ?_, ?_⟩ <;> simp [saveResult, jsTruthy, orZero]

/-- C2 counterexample: the display-commit recorder has no already-set guard —
a second firing overwrites a previously recorded `screenDisplayTime` (100
becomes 200), so it is not a no-op as claimed. -/
theorem recordScreenDisplayTime_overwrites :
    (recordScreenDisplayTimeFire
        (recordScreenDisplayTimeFire baseState 100) 200).screenDisplayTime =
      some 200 ∧ some (200 : ℚ) ≠ some (100 : ℚ) :=
  ⟨rfl, by norm_num⟩

/-- C2 (amended): at most one `inputStartTime` is recorded per arming — after
any call to the input-start recorder, further calls never change the field
(the first successful call clears the waiting flag, which gates the guard).
The display-commit recorder, by contrast, assigns unconditionally on every
firing; uniqueness of `displayTime` per opportunity holds only because the
engine schedules exactly one firing per arming. -/
theorem recordInputStart_idempotent (st : ExperimentState) (n1 n2 : ℚ) :
    (recordInputStart (recordInputStart st n1) n2).inputStartTime =
      (recordInputStart st n1).inputStartTime ∧
    (recordScreenDisplayTimeFire st n1).screenDisplayTime = some n1 := by
  constructor
  · by_cases hc : (!(jsTruthy st.inputStartTime) && st.isWaitingForInput) = true
    · have h1 : recordInputStart st n1 =
          { st with inputStartTime := some n1, isWaitingForInput := false } := by
        rw [recordInputStart, if_pos hc]
      rw [h1, recordInputStart, if_neg (by simp)]
    · have h1 : recordInputStart st n1 = st := by
        rw [recordInputStart, if_neg hc]
      rw [h1, recordInputStart, if_neg hc]
  · rfl

/-- C3 counterexample: arming a new prediction opportunity does not unset the
display timestamp: after a display firing recorded 500, `prepareForPrediction`
leaves `screenDisplayTime = some 500`, not unset. -/
theorem prepareForPrediction_keeps_stale_display :
    (prepareForPrediction
        (recordScreenDisplayTimeFire baseState 500)).screenDisplayTime =
      some 500 ∧ some (500 : ℚ) ≠ (none : Option ℚ) :=
  ⟨rfl, by simp⟩

/-- C3 (amended): immediately after the arming step (`prepareForPrediction`),
`inputStartTime` is unset and the waiting flag is armed, but
`screenDisplayTime` is NOT reset — it keeps its previous value until the
scheduled display-commit callback overwrites it (~50ms later).  Indices are
unchanged. -/
theorem prepareForPrediction_resets (st : ExperimentState) :
    (prepareForPrediction st).inputStartTime = none ∧
    (prepareForPrediction st).isWaitingForInput = true ∧
    (prepareForPrediction st).screenDisplayTime = st.screenDisplayTime ∧
    (prepareForPrediction st).currentSentenceIndex = st.currentSentenceIndex ∧
    (prepareForPrediction st).currentWordIndex = st.currentWordIndex :=
  ⟨rfl, rfl, rfl, rfl, rfl⟩

/-- C6: confirming with an input that trims to empty is rejected with no state
change at all: same indices, same ledger, same phase. -/
theorem confirmPrediction_empty_rejected (st : ExperimentState)
    (inputValue nowIso : List Char) (h : trimChars inputValue = []) :
    confirmPrediction st inputValue nowIso = st := by
  rw [confirmPrediction]
  simp [h]

/-- C6 witness: a whitespace-only input at step (0,0) leaves the state
untouched. -/
theorem confirmPrediction_empty_rejected_witness :
    confirmPrediction abcState ("  ".toList) [] = abcState :=
  confirmPrediction_empty_rejected abcState ("  ".toList) [] (by decide)

/-- C5 (amended): confirming while either timestamp is missing still produces
a record: it is appended to the ledger, its response time is 0, and each
MISSING raw timestamp field is present as zero in the record (a timestamp
that WAS recorded keeps its value — see the counterexample against "both
fields zero"); no fault occurs (the model is total) and the flow continues. -/
theorem confirmPrediction_timing_gap (st : ExperimentState)
    (inputValue nowIso : List Char) (hne : trimChars inputValue ≠ [])
    (hgap : st.screenDisplayTime = none ∨ st.inputStartTime = none) :
    (confirmPrediction st inputValue nowIso).results =
      st.results ++ [saveResult st (trimChars inputValue) nowIso] ∧
    (saveResult st (trimChars inputValue) nowIso).responseTime = 0 ∧
    (st.screenDisplayTime = none →
      (saveResult st (trimChars inputValue) nowIso).screenDisplayTime = 0) ∧
    (st.inputStartTime = none →
      (saveResult st (trimChars inputValue) nowIso).inputStartTime = 0) := by
  refine ⟨confirmPrediction_results st inputValue nowIso hne, ?_, ?_, ?_⟩
  · have hcond : (jsTruthy st.inputStartTime && jsTruthy st.screenDisplayTime) = false := by
      rcases hgap with h | h <;> rw [h] <;> simp [jsTruthy]
    simp only [saveResult, hcond, Bool.false_eq_true, if_false]
  · intro h
    simp only [saveResult, h, orZero]
  · intro h
    simp only [saveResult, h, orZero]

/-- C5 witness: a concrete gap (display never recorded, input-start recorded
as 500) at step (0,0) of a three-word sentence. -/
theorem confirmPrediction_timing_gap_witness :
    (confirmPrediction { abcState with inputStartTime := some 500 } ("ab".toList) []).results =
      ({ abcState with inputStartTime := some 500 } : ExperimentState).results ++
        [saveResult { abcState with inputStartTime := some 500 } (trimChars ("ab".toList)) []] ∧
    (saveResult { abcState with inputStartTime := some 500 } (trimChars ("ab".toList)) []).responseTime = 0 ∧
    (({ abcState with inputStartTime := some 500 } : ExperimentState).screenDisplayTime = none →
      (saveResult { abcState with inputStartTime := some 500 } (trimChars ("ab".toList)) []).screenDisplayTime = 0) ∧
    (({ abcState with inputStartTime := some 500 } : ExperimentState).inputStartTime = none →
      (saveResult { abcState with inputStartTime := some 500 } (trimChars ("ab".toList)) []).inputStartTime = 0) :=
  confirmPrediction_timing_gap { abcState with inputStartTime := some 500 }
    ("ab".toList) [] (by decide) (Or.inl rfl)

/-- C5 counterexample: in the same gap scenario the record's raw
`inputStartTime` field is 500, not zero — the claim that BOTH raw timestamp
fields are present as zero fails when only one timestamp is missing. -/
theorem confirmPrediction_gap_field_nonzero :
    ((confirmPrediction { abcState with inputStartTime := some 500 } ("ab".toList) []).results.map
        (fun r => r.inputStartTime)) = [500] ∧ (500 : ℚ) ≠ 0 := by
  constructor
  · rw [confirmPrediction_results _ _ _ (by decide)]
    simp [saveResult, abcState, baseState, orZero]
  · norm_num

/-! ## The Reveal Engine's visit sequence

`displayCurrentSentence` (src/script.js:210-256) together with
`confirmPrediction` (which re-enters it with `currentWordIndex + 1`) and the
terminal 2s timeout (which re-enters it at the next sentence) induces, for a
fixed stimulus list, a sequence of visited steps: prediction-awaiting steps
(the `prepareForPrediction` branch, visited once per step — an empty
confirmation re-prompts without leaving the step) and terminal auto-advance
steps (the `isLastWord` branch).  `runVisitsAux s l w` is that sequence
starting from sentence index `s` (with `l` the remaining sentences, so that
`l.headI` is the current sentence) and word index `w`. -/

inductive Visit where
  | awaiting (sentenceIndex wordIndex : Nat)
  | autoAdvance (sentenceIndex wordIndex : Nat)
deriving DecidableEq

/-- The sentence index of a visit. -/
def Visit.sIdx : Visit → Nat
  | awaiting s _ => s
  | autoAdvance s _ => s

def runVisitsAux (s : Nat) : List (List Char) → Nat → List Visit
  | [], _ => []
  | sent :: rest, w =>
    if w ≥ (splitIntoWords sent).length then runVisitsAux (s + 1) rest 0
    else if w = (splitIntoWords sent).length - 1 then
      Visit.autoAdvance s w :: runVisitsAux (s + 1) rest 0
    else Visit.awaiting s w :: runVisitsAux s (sent :: rest) (w + 1)
termination_by l w => (l.length, (splitIntoWords l.headI).length - w)
decreasing_by
  · apply Prod.Lex.left
    simp
  · apply Prod.Lex.left
    simp
  · apply Prod.Lex.right
    simp only [List.headI]
    omega

/-- The full visit sequence of a run over a stimulus list. -/
def runVisits (sents : List (List Char)) : List Visit :=
  runVisitsAux 0 sents 0

/-- Expected visit block for one sentence of `n` tokenized words. -/
def sentVisits (s n : Nat) : List Visit :=
  if n = 0 then []
  else ((List.range (n - 1)).map (fun w => Visit.awaiting s w)) ++
    [Visit.autoAdvance s (n - 1)]

theorem runVisitsAux_inner (sent : List Char) (rest : List (List Char)) :
    ∀ (k s w : Nat), w + k = (splitIntoWords sent).length - 1 →
      w < (splitIntoWords sent).length →
      runVisitsAux s (sent :: rest) w =
        ((List.range' w k).map (fun j => Visit.awaiting s j)) ++
          Visit.autoAdvance s ((splitIntoWords sent).length - 1) ::
            runVisitsAux (s + 1) rest 0 := by
  intro k
  induction k with
  | zero =>
    intro s w hk hw
    rw [runVisitsAux, if_neg (by omega), if_pos (by omega)]
    simp only [List.range', List.map_nil, List.nil_append]
    rw [Nat.add_zero] at hk
    rw [hk]
  | succ k ih =>
    intro s w hk hw
    rw [runVisitsAux, if_neg (by omega), if_neg (by omega)]
    rw [ih s (w + 1) (by omega) (by omega)]
    rfl

theorem runVisitsAux_cons (s : Nat) (sent : List Char) (rest : List (List Char)) :
    runVisitsAux s (sent :: rest) 0 =
      sentVisits s (splitIntoWords sent).length ++ runVisitsAux (s + 1) rest 0 := by
  by_cases hn : (splitIntoWords sent).length = 0
  · rw [runVisitsAux, if_pos (by omega), sentVisits, if_pos hn, List.nil_append]
  · rw [runVisitsAux_inner sent rest ((splitIntoWords sent).length - 1) s 0
      (by omega) (by omega), sentVisits, if_neg hn]
    rw [List.range_eq_range']
    simp

/-- The run's visit sequence is the concatenation, sentence by sentence, of
each sentence's block of n-1 awaiting visits followed by its terminal
auto-advance (empty-tokenizing sentences contribute nothing). -/
theorem runVisitsAux_flatten : ∀ (l : List (List Char)) (s : Nat),
    runVisitsAux s l 0 =
      (l.enumFrom s).flatMap (fun p => sentVisits p.1 (splitIntoWords p.2).length) := by
  intro l
  induction l with
  | nil => intro s; rw [runVisitsAux]; rfl
  | cons sent rest ih =>
    intro s
    rw [runVisitsAux_cons, List.enumFrom_cons, List.flatMap_cons, ih (s + 1)]

theorem sentVisits_sIdx {v : Visit} {s n : Nat} (h : v ∈ sentVisits s n) :
    v.sIdx = s := by
  rw [sentVisits] at h
  by_cases hn : n = 0
  · rw [if_pos hn] at h
    exact absurd h (List.not_mem_nil v)
  · rw [if_neg hn] at h
    rcases List.mem_append.mp h with h1 | h1
    · rcases List.mem_map.mp h1 with ⟨w, _, hw⟩
      rw [← hw]
      rfl
    · rw [List.mem_singleton.mp h1]
      rfl

theorem enumFrom_fst_ge {l : List (List Char)} {a : Nat} {p : Nat × List Char}
    (hp : p ∈ l.enumFrom a) : a ≤ p.1 := by
  obtain ⟨i, x⟩ := p
  exact (List.mem_enumFrom hp).1

/-- A `flatMap` over an index enumeration whose function vanishes away from a
single index `s` collapses to that index's block. -/
theorem flatMap_enumFrom_single {β : Type} (g : Nat → List Char → List β) (s : Nat) :
    ∀ (l : List (List Char)) (a : Nat), a ≤ s → s - a < l.length →
      (∀ (i : Nat) (x : List Char), i ≠ s → g i x = []) →
      (l.enumFrom a).flatMap (fun p => g p.1 p.2) = g s (l.getD (s - a) []) := by
  intro l
  induction l with
  | nil =>
    intro a _ h2 _
    simp at h2
  | cons x xs ih =>
    intro a h1 h2 hg
    rw [List.enumFrom_cons, List.flatMap_cons]
    by_cases ha : a = s
    · subst ha
      have hz : (xs.enumFrom (a + 1)).flatMap (fun p => g p.1 p.2) = [] := by
        rw [List.flatMap_eq_nil_iff]
        intro p hp
        exact hg p.1 p.2 (by have := enumFrom_fst_ge hp; omega)
      rw [hz, List.append_nil, Nat.sub_self, List.getD_cons_zero]
    · have hs : s - a = (s - (a + 1)) + 1 := by omega
      rw [hg a x (by omega), List.nil_append,
        ih (a + 1) (by omega) (by simp only [List.length_cons] at h2; omega) hg,
        hs, List.getD_cons_succ]

/-- Filtering the run's visits down to one sentence index yields exactly that
sentence's block. -/
theorem runVisits_filter_sentence (sents : List (List Char)) (s : Nat)
    (h1 : s < sents.length) :
    (runVisits sents).filter (fun v => v.sIdx == s) =
      sentVisits s (splitIntoWords (sents.getD s [])).length := by
  rw [runVisits, runVisitsAux_flatten, List.filter_flatMap]
  have hstep : ∀ p : Nat × List Char,
      (sentVisits p.1 (splitIntoWords p.2).length).filter (fun v => v.sIdx == s) =
        (if p.1 = s then (fun q : Nat × List Char =>
          sentVisits q.1 (splitIntoWords q.2).length) p else []) := by
    intro p
    by_cases hp : p.1 = s
    · rw [if_pos hp]
      apply List.filter_eq_self.mpr
      intro v hv
      rw [sentVisits_sIdx hv, hp]
      exact beq_self_eq_true s
    · rw [if_neg hp]
      apply List.filter_eq_nil_iff.mpr
      intro v hv
      rw [sentVisits_sIdx hv]
      simp [hp]
  calc (sents.enumFrom 0).flatMap
        (fun p => (sentVisits p.1 (splitIntoWords p.2).length).filter
          (fun v => v.sIdx == s))
      = (sents.enumFrom 0).flatMap (fun p => if p.1 = s then
          sentVisits p.1 (splitIntoWords p.2).length else []) := by
        simp only [hstep]
    _ = if s = s then sentVisits s (splitIntoWords (sents.getD (s - 0) [])).length
          else [] := by
        apply flatMap_enumFrom_single (fun i x => if i = s then
          sentVisits i (splitIntoWords x).length else []) s sents 0 (Nat.zero_le s)
          (by omega)
        intro i x hi
        rw [if_neg hi]
    _ = sentVisits s (splitIntoWords (sents.getD s [])).length := by
        rw [if_pos rfl, Nat.sub_zero]

/-- C4: for every sentence of the stimulus list that tokenizes to n ≥ 2
words, a run of the Reveal Engine visits, within that sentence, exactly the
n-1 prediction-awaiting steps at the strictly increasing word indices
0..n-2, followed by exactly one terminal auto-advance step at word index
n-1 (for which no prediction is collected — only `awaiting` visits reach
`prepareForPrediction`/`confirmPrediction`). -/
theorem runVisits_per_sentence (sents : List (List Char)) (s : Nat)
    (h1 : s < sents.length)
    (h2 : 2 ≤ (splitIntoWords (sents.getD s [])).length) :
    (runVisits sents).filter (fun v => v.sIdx == s) =
      ((List.range ((splitIntoWords (sents.getD s [])).length - 1)).map
        (fun w => Visit.awaiting s w)) ++
        [Visit.autoAdvance s ((splitIntoWords (sents.getD s [])).length - 1)] := by
  rw [runVisits_filter_sentence sents s h1, sentVisits, if_neg (by omega)]

/-- C4 witness: the three-word sentence "a b c" yields awaiting visits at
word indices 0 and 1 and a terminal auto-advance at word index 2. -/
theorem runVisits_per_sentence_witness :
    (runVisits ["a b c".toList]).filter (fun v => v.sIdx == 0) =
      ((List.range ((splitIntoWords (["a b c".toList].getD 0 [])).length - 1)).map
        (fun w => Visit.awaiting 0 w)) ++
        [Visit.autoAdvance 0 ((splitIntoWords (["a b c".toList].getD 0 [])).length - 1)] :=
  runVisits_per_sentence ["a b c".toList] 0 (by decide) (by decide)

/-! ## Progress metric -/

/-- src/script.js:251-253: the progress denominator — a `reduce` over ALL
sentences of `splitIntoWords(sentence).length - 1` in JS number arithmetic
(modelled as `ℤ`: an empty-tokenizing sentence contributes -1, not 0). -/
def totalSteps (sentences : List (List Char)) : Int :=
  sentences.foldl
    (fun total sent => total + ((splitIntoWords sent).length : Int) - 1) 0

/-- src/script.js:303-313 `getCurrentStep`: sum of `length - 1` over the
sentences before the current one, plus
`min(currentWordIndex, currentWords.length - 1)`. -/
def getCurrentStep (sentences : List (List Char)) (cs cw : Nat) : Int :=
  (List.range cs).foldl
    (fun step i => step + ((splitIntoWords (sentences.getD i [])).length : Int) - 1) 0
  + min (cw : Int) (((splitIntoWords (sentences.getD cs [])).length : Int) - 1)

/-- Modelled from the spec (§4.4): the total number of prediction
opportunities is `Σ (len(words_i) - 1)` over every sentence with at least one
word. -/
def specTotalOpportunities (sentences : List (List Char)) : Nat :=
  ((sentences.filter (fun t => !(splitIntoWords t).isEmpty)).map
    (fun t => (splitIntoWords t).length - 1)).sum

/-- Is `v` a prediction-awaiting visit lexicographically before step
`(cs, cw)`? -/
def awaitBefore (cs cw : Nat) : Visit → Bool
  | Visit.awaiting i j => decide (i < cs ∨ (i = cs ∧ j < cw))
  | Visit.autoAdvance _ _ => false

/-- The number of prediction opportunities strictly completed when the engine
stands at step `(cs, cw)`: awaiting visits of the run that lie strictly
before `(cs, cw)` in lexicographic step order. -/
def completedCount (sents : List (List Char)) (cs cw : Nat) : Nat :=
  ((runVisits sents).filter (awaitBefore cs cw)).length

theorem length_filter_range_lt (m : Nat) :
    ∀ k, ((List.range k).filter (fun j => decide (j < m))).length = min m k := by
  intro k
  induction k with
  | zero => simp
  | succ k ih =>
    rw [List.range_succ, List.filter_append, List.length_append, ih]
    by_cases hk : k < m <;> simp [hk] <;> omega

theorem sentVisits_count (cs cw i n : Nat) :
    ((sentVisits i n).filter (awaitBefore cs cw)).length =
      if i < cs then n - 1 else if i = cs then min cw (n - 1) else 0 := by
  rw [sentVisits]
  by_cases hn : n = 0
  · subst hn
    simp only [if_pos]
    rw [List.filter_nil]
    by_cases h1 : i < cs
    · simp [h1]
    · by_cases h2 : i = cs <;> simp [h1, h2]
  · rw [if_neg hn, List.filter_append, List.length_append, List.filter_map]
    have hauto : (List.filter (awaitBefore cs cw) [Visit.autoAdvance i (n - 1)]) = [] := by
      simp [awaitBefore]
    rw [hauto, List.length_nil, List.length_map]
    by_cases h1 : i < cs
    · rw [if_pos h1]
      have : List.filter (awaitBefore cs cw ∘ fun w => Visit.awaiting i w)
          (List.range (n - 1)) = List.range (n - 1) := by
        apply List.filter_eq_self.mpr
        intro j _
        simp [awaitBefore, Function.comp, h1]
      rw [this, List.length_range, Nat.add_zero]
    · by_cases h2 : i = cs
      · subst h2
        rw [if_neg h1, if_pos rfl]
        have : List.filter (awaitBefore i cw ∘ fun w => Visit.awaiting i w)
            (List.range (n - 1)) =
            List.filter (fun j => decide (j < cw)) (List.range (n - 1)) := by
          apply List.filter_congr
          intro j _
          simp [awaitBefore, Function.comp, h1]
        rw [this, length_filter_range_lt, Nat.add_zero]
      · rw [if_neg h1, if_neg h2]
        have : List.filter (awaitBefore cs cw ∘ fun w => Visit.awaiting i w)
            (List.range (n - 1)) = [] := by
          apply List.filter_eq_nil_iff.mpr
          intro j _
          simp [awaitBefore, Function.comp, h1, h2]
        rw [this, List.length_nil]

theorem runVisitsAux_sIdx_ge {v : Visit} {a : Nat} {l : List (List Char)}
    (hv : v ∈ runVisitsAux a l 0) : a ≤ v.sIdx := by
  rw [runVisitsAux_flatten] at hv
  rcases List.mem_flatMap.mp hv with ⟨p, hp, hvp⟩
  have h1 := enumFrom_fst_ge hp
  have h2 := sentVisits_sIdx hvp
  omega

/-- Completed-count recursion: counting awaiting visits before `(cs, cw)`
from sentence `a` onwards. -/
theorem completed_aux (cs cw : Nat) : ∀ (l : List (List Char)) (a : Nat),
    a ≤ cs → cs - a < l.length →
    cw < (splitIntoWords (l.getD (cs - a) [])).length →
    ((runVisitsAux a l 0).filter (awaitBefore cs cw)).length =
      ((l.take (cs - a)).map (fun t => (splitIntoWords t).length - 1)).sum + cw := by
  intro l
  induction l with
  | nil =>
    intro a _ h2 _
    simp at h2
  | cons x xs ih =>
    intro a h1 h2 h3
    rw [runVisitsAux_cons, List.filter_append, List.length_append, sentVisits_count]
    by_cases ha : a = cs
    · subst ha
      have h0 : a - a = 0 := Nat.sub_self a
      rw [h0] at h3
      rw [List.getD_cons_zero] at h3
      have htail : (runVisitsAux (a + 1) xs 0).filter (awaitBefore a cw) = [] := by
        apply List.filter_eq_nil_iff.mpr
        intro v hv
        have hge := runVisitsAux_sIdx_ge hv
        cases v with
        | awaiting i j =>
          simp only [Visit.sIdx] at hge
          simp [awaitBefore]
          omega
        | autoAdvance i j => simp [awaitBefore]
      rw [htail, List.length_nil, h0, List.take_zero, List.map_nil, List.sum_nil,
        if_neg (Nat.lt_irrefl a), if_pos rfl]
      omega
    · have halt : a < cs := by omega
      have hs : cs - a = (cs - (a + 1)) + 1 := by omega
      rw [hs, List.getD_cons_succ] at h3
      rw [if_pos halt]
      rw [ih (a + 1) (by omega) (by simp only [List.length_cons] at h2; omega) h3]
      rw [hs, List.take_succ_cons, List.map_cons, List.sum_cons]
      omega

theorem foldl_add_sub_one {α : Type} (g : α → Int) :
    ∀ (l : List α) (init : Int),
      l.foldl (fun a t => a + g t - 1) init =
        init + (l.map (fun t => g t - 1)).sum := by
  intro l
  induction l with
  | nil => intro init; simp
  | cons x xs ih =>
    intro init
    rw [List.foldl_cons, ih, List.map_cons, List.sum_cons]
    ring

theorem sum_len_sub_one_cast :
    ∀ (l : List (List Char)), (∀ t ∈ l, splitIntoWords t ≠ []) →
      (l.map (fun t => ((splitIntoWords t).length : Int) - 1)).sum =
        (((l.map (fun t => (splitIntoWords t).length - 1)).sum : Nat) : Int) := by
  intro l
  induction l with
  | nil => intro _; simp
  | cons x xs ih =>
    intro h
    rw [List.map_cons, List.sum_cons, List.map_cons, List.sum_cons,
      ih (fun t ht => h t (List.mem_cons_of_mem x ht))]
    have hlen : 1 ≤ (splitIntoWords x).length :=
      List.length_pos.mpr (h x (List.mem_cons_self x xs))
    push_cast [hlen]
    ring

theorem map_range_getD (f : List Char → Int) :
    ∀ (cs : Nat) (sents : List (List Char)), cs ≤ sents.length →
      (List.range cs).map (fun i => f (sents.getD i [])) =
        (sents.take cs).map f := by
  intro cs
  induction cs with
  | zero => intro sents _; simp
  | succ cs ih =>
    intro sents h
    rw [List.range_succ, List.map_append, ih sents (by omega), List.take_succ]
    have hget : sents[cs]? = some (sents.getD cs []) := by
      rw [List.getD_eq_getElem?_getD, List.getElem?_eq_getElem (by omega)]
      rfl
    rw [hget]
    simp

/-- C7 (amended): for stimulus lists in which every sentence tokenizes to at
least one word (the stimulus loader guarantees this by filtering blank rows;
a whitespace-only sentence would contribute -1, not 0, to the denominator —
see the counterexample), the progress denominator equals the spec's
`Σ (len(words_i) - 1)`, with one-word sentences contributing exactly 0; and
the current-step numerator equals the number of prediction opportunities
STRICTLY completed before the in-flight step — the in-flight opportunity's
0-based ordinal — not the completed count plus the in-flight one. -/
theorem progress_metric_amended (sents : List (List Char))
    (h : ∀ t ∈ sents, splitIntoWords t ≠ []) :
    totalSteps sents = (specTotalOpportunities sents : Int) ∧
    ∀ cs cw, cs < sents.length →
      cw < (splitIntoWords (sents.getD cs [])).length →
      getCurrentStep sents cs cw = (completedCount sents cs cw : Int) := by
  constructor
  · have hfil : sents.filter (fun t => !(splitIntoWords t).isEmpty) = sents :=
      List.filter_eq_self.mpr (fun t ht => by simp [List.isEmpty_iff, h t ht])
    rw [totalSteps,
      foldl_add_sub_one (fun sent => ((splitIntoWords sent).length : Int)) sents 0,
      zero_add, sum_len_sub_one_cast sents h, specTotalOpportunities, hfil]
  · intro cs cw hcs hcw
    rw [getCurrentStep,
      foldl_add_sub_one (fun i => ((splitIntoWords (sents.getD i [])).length : Int))
        (List.range cs) 0,
      zero_add,
      map_range_getD (fun t => ((splitIntoWords t).length : Int) - 1) cs sents
        (Nat.le_of_lt hcs),
      sum_len_sub_one_cast (sents.take cs)
        (fun t ht => h t (List.mem_of_mem_take ht))]
    have hcc : completedCount sents cs cw =
        ((sents.take cs).map (fun t => (splitIntoWords t).length - 1)).sum + cw := by
      rw [completedCount, runVisits]
      have hx := completed_aux cs cw sents 0 (Nat.zero_le cs)
        (by rw [Nat.sub_zero]; exact hcs) (by rw [Nat.sub_zero]; exact hcw)
      rw [Nat.sub_zero] at hx
      exact hx
    rw [hcc]
    have hmin : min (cw : Int)
        (((splitIntoWords (sents.getD cs [])).length : Int) - 1) = (cw : Int) := by
      have h1 : (cw : Int) < ((splitIntoWords (sents.getD cs [])).length : Int) := by
        exact_mod_cast hcw
      omega
    rw [hmin]
    push_cast
    ring

/-- C7 witness: one three-word sentence — denominator 2, and at the second
opportunity (0,1) the numerator is the 1 strictly-completed opportunity. -/
theorem progress_metric_amended_witness :
    totalSteps ["a b c".toList] = (specTotalOpportunities ["a b c".toList] : Int) ∧
    getCurrentStep ["a b c".toList] 0 1 =
      (completedCount ["a b c".toList] 0 1 : Int) :=
  ⟨(progress_metric_amended ["a b c".toList] (by decide)).1,
   (progress_metric_amended ["a b c".toList] (by decide)).2 0 1 (by decide) (by decide)⟩

/-- C7 counterexample: (a) a whitespace-only sentence makes the code's
denominator 0 while the spec formula gives 1 — it contributes -1, not 0;
(b) with one three-word sentence, at in-flight opportunity (0,1) the code's
numerator is 1 — the strictly-completed count — not 2, the completed count
plus the in-flight one. -/
theorem progress_metric_counterexample :
    totalSteps ["a b".toList, " ".toList] = 0 ∧
    (specTotalOpportunities ["a b".toList, " ".toList] : Int) = 1 ∧
    (0 : Int) ≠ 1 ∧
    getCurrentStep ["a b c".toList] 0 1 = 1 ∧
    completedCount ["a b c".toList] 0 1 = 1 ∧
    (1 : Int) ≠ 1 + 1 := by
  refine ⟨by decide, by decide, by decide, by decide, ?_, by decide⟩
  rw [completedCount, runVisits, runVisitsAux_cons, runVisitsAux]
  decide

/-! ## The ledger's step identities

`confirmPrediction` (src/script.js:329-343) appends a record at the current
`(currentSentenceIndex, currentWordIndex)` via `saveResult` and then
increments `currentWordIndex` before any further confirmation can run
(single-threaded event loop); the skip and terminal branches of
`displayCurrentSentence` move to the next sentence without appending.
`runLedgerAux s l w inputs` is the resulting sequence of
`(sentenceIndex, wordIndex)` identities of appended records, where `s` is the
current sentence index, `l` the remaining sentences (`l.headI` current), `w`
the word index, and `inputs` the participant's successive confirmation
texts — one consumed per confirmation attempt, with an input that trims to
empty rejected without appending or advancing. -/
def runLedgerAux (s : Nat) :
    List (List Char) → Nat → List (List Char) → List (Nat × Nat)
  | [], _, _ => []
  | sent :: rest, w, inputs =>
    if w ≥ (splitIntoWords sent).length then runLedgerAux (s + 1) rest 0 inputs
    else if w = (splitIntoWords sent).length - 1 then
      runLedgerAux (s + 1) rest 0 inputs
    else match inputs with
      | [] => []
      | t :: ti =>
        if trimChars t = [] then runLedgerAux s (sent :: rest) w ti
        else (s, w) :: runLedgerAux s (sent :: rest) (w + 1) ti
termination_by l w inputs => (l.length, (splitIntoWords l.headI).length - w, inputs.length)
decreasing_by
  · apply Prod.Lex.left
    simp
  · apply Prod.Lex.left
    simp
  · apply Prod.Lex.right
    apply Prod.Lex.right
    simp
  · apply Prod.Lex.right
    apply Prod.Lex.left
    simp only [List.headI]
    omega

/-- Strict lexicographic order on step identities. -/
def stepLt (p q : Nat × Nat) : Prop :=
  p.1 < q.1 ∨ (p.1 = q.1 ∧ p.2 < q.2)

theorem runLedgerAux_sorted : ∀ (s : Nat) (l : List (List Char)) (w : Nat)
    (inputs : List (List Char)),
    (∀ p ∈ runLedgerAux s l w inputs, s < p.1 ∨ (s = p.1 ∧ w ≤ p.2)) ∧
      List.Pairwise stepLt (runLedgerAux s l w inputs) := by
  intro s l w inputs
  induction s, l, w, inputs using runLedgerAux.induct with
  | case1 s w inputs =>
    rw [runLedgerAux.eq_def]
    dsimp only
    exact ⟨fun p hp => absurd hp (List.not_mem_nil p), List.Pairwise.nil⟩
  | case2 s sent rest w inputs hw ih =>
    rw [runLedgerAux.eq_def]
    dsimp only
    rw [if_pos hw]
    refine ⟨fun p hp => ?_, ih.2⟩
    rcases ih.1 p hp with h1 | ⟨h1, _⟩
    · left; omega
    · left; omega
  | case3 s sent rest inputs hw ih =>
    rw [runLedgerAux.eq_def]
    dsimp only
    rw [if_neg hw, if_pos rfl]
    refine ⟨fun p hp => ?_, ih.2⟩
    rcases ih.1 p hp with h1 | ⟨h1, _⟩
    · left; omega
    · left; omega
  | case4 s sent rest w hw hterm =>
    rw [runLedgerAux.eq_def]
    dsimp only
    rw [if_neg hw, if_neg hterm]
    exact ⟨fun p hp => absurd hp (List.not_mem_nil p), List.Pairwise.nil⟩
  | case5 s sent rest w hw hterm t ti htr ih =>
    rw [runLedgerAux.eq_def]
    dsimp only
    rw [if_neg hw, if_neg hterm]
    simp only [htr, if_pos]
    exact ih
  | case6 s sent rest w hw hterm t ti htr ih =>
    rw [runLedgerAux.eq_def]
    dsimp only
    rw [if_neg hw, if_neg hterm]
    simp only [htr, if_neg, if_false]
    constructor
    · intro p hp
      rcases List.mem_cons.mp hp with h1 | h1
      · right
        rw [h1]
        exact ⟨rfl, Nat.le_refl w⟩
      · rcases ih.1 p h1 with h2 | ⟨h2, h3⟩
        · left; exact h2
        · right; exact ⟨h2, by omega⟩
    · rw [List.pairwise_cons]
      refine ⟨fun p hp => ?_, ih.2⟩
      rcases ih.1 p hp with h2 | ⟨h2, h3⟩
      · left; exact h2
      · right; exact ⟨h2.symm ▸ rfl, by omega⟩

/-- C8: within a single run, every result record appended to the ledger has a
`(sentenceIndex, wordIndex)` pair distinct from every previously appended
record — the state machine increments `currentWordIndex` immediately after
each append (and sentence changes only increase `sentenceIndex`), so the
sequence of appended step identities is strictly lexicographically increasing,
hence pairwise distinct, for every stimulus list and every sequence of
participant inputs. -/
theorem ledger_steps_distinct (sents inputs : List (List Char)) :
    List.Pairwise (fun p q => p ≠ q) (runLedgerAux 0 sents 0 inputs) := by
  refine ((runLedgerAux_sorted 0 sents 0 inputs).2).imp ?_
  intro p q hpq heq
  rcases hpq with h1 | ⟨h1, h2⟩
  · rw [heq] at h1
    omega
  · rw [heq] at h2
    omega
